import Mathlib

/-!
Shallow embedding of the version-derivation and tagging engine of
`src/semver.py`, together with proofs of the specification's claims.

Python strings are modelled as `List Char`; fallible Python code
(`int(...)` / tuple unpacking, which raise on bad input) is modelled with
`Option`; the two external collaborators (the history reader and the tag
writer) are modelled as inputs: each commit comes paired with
`Option (List Char)` (its message, or `none` when `git log` fails, in
which case the exception propagates and the run aborts), and the outcome
of each `git tag` invocation is supplied by an oracle `Nat → TagOutcome`
(the code ignores the result of `subprocess.run`, so the oracle never
influences control flow).
-/

/-- One decimal digit character, mirroring how Python renders digits of a
non-negative integer (`str(n)`). -/
def digitChar (d : Nat) : Char := Char.ofNat (48 + d)

/-- `c` is one of `'0'`..`'9'`. -/
def isDigitChar (c : Char) : Bool := decide ('0' ≤ c) && decide (c ≤ '9')

/-- Fuel-driven decimal rendering of a natural number, most significant
digit first; `toDigitsAux fuel n` is correct whenever `n < fuel`. -/
def toDigitsAux : Nat → Nat → List Char
  | 0, _ => []
  | fuel + 1, n =>
    if n < 10 then [digitChar n]
    else toDigitsAux fuel (n / 10) ++ [digitChar (n % 10)]

/-- Decimal rendering of a natural number, mirroring Python's `str(n)`
for `n ≥ 0` (no sign, no leading zeros, `"0"` for zero). -/
def natToStr (n : Nat) : List Char := toDigitsAux (n + 1) n

/-- Value of a digit string, most significant digit first (the fold
performed by Python's `int(s)` on a string of decimal digits). -/
def digitsToNat (s : List Char) : Nat :=
  s.foldl (fun acc c => acc * 10 + (c.toNat - 48)) 0

/-- Python's `int(s)` for the strings this program feeds it: succeeds on a
non-empty all-digit string, raises (`none`) otherwise.  (Python's `int`
additionally tolerates a sign and surrounding whitespace; no string this
program produces or the claims mention has either.) -/
def strToNat? (s : List Char) : Option Nat :=
  if s.isEmpty then none
  else if s.all isDigitChar then some (digitsToNat s) else none

/-- Python's `v.split(".")`: split a character list on `'.'`, keeping
empty components, never returning an empty list of components. -/
def splitOnDot : List Char → List (List Char)
  | [] => [[]]
  | c :: rest =>
    if c = '.' then [] :: splitOnDot rest
    else
      match splitOnDot rest with
      | [] => [[c]]
      | g :: gs => (c :: g) :: gs

-- ---------------------------------------------------------------------
-- Digit-string lemmas
-- ---------------------------------------------------------------------

theorem digitChar_toNat {d : Nat} (h : d < 10) : (digitChar d).toNat = 48 + d := by
  interval_cases d <;> decide

theorem digitChar_isDigit {d : Nat} (h : d < 10) : isDigitChar (digitChar d) = true := by
  interval_cases d <;> decide

theorem digitChar_ne_dot {d : Nat} (h : d < 10) : digitChar d ≠ '.' := by
  interval_cases d <;> decide

theorem toDigitsAux_fuel {n : Nat} : ∀ {f g : Nat}, n < f → n < g →
    toDigitsAux f n = toDigitsAux g n := by
  induction n using Nat.strong_induction_on with
  | _ n ih =>
    intro f g hf hg
    obtain ⟨f', rfl⟩ : ∃ f', f = f' + 1 := ⟨f - 1, by omega⟩
    obtain ⟨g', rfl⟩ : ∃ g', g = g' + 1 := ⟨g - 1, by omega⟩
    by_cases h10 : n < 10
    · simp [toDigitsAux, h10]
    · have hd : n / 10 < n := Nat.div_lt_self (by omega) (by omega)
      have h1 : n / 10 < f' := by omega
      have h2 : n / 10 < g' := by omega
      simp only [toDigitsAux, h10, if_false]
      rw [ih (n / 10) hd h1 h2]

theorem natToStr_eq_small {n : Nat} (h : n < 10) : natToStr n = [digitChar n] := by
  simp [natToStr, toDigitsAux, h]

theorem natToStr_eq_large {n : Nat} (h : ¬ n < 10) :
    natToStr n = natToStr (n / 10) ++ [digitChar (n % 10)] := by
  have hd : n / 10 < n := Nat.div_lt_self (by omega) (by omega)
  have h1 : toDigitsAux (n + 1) n = toDigitsAux n (n / 10) ++ [digitChar (n % 10)] := by
    rw [toDigitsAux, if_neg h]
  rw [natToStr, h1, natToStr]
  exact congrArg (· ++ [digitChar (n % 10)]) (toDigitsAux_fuel (by omega) (by omega))

theorem digitsToNat_append_digit (a : List Char) (c : Char) :
    digitsToNat (a ++ [c]) = digitsToNat a * 10 + (c.toNat - 48) := by
  simp [digitsToNat, List.foldl_append]

/-- Everything needed about the decimal rendering of `n`, in one strong
induction: the `int` fold recovers `n`, the string is non-empty, all of
its characters are digits, and `'.'` does not occur. -/
theorem natToStr_spec (n : Nat) :
    digitsToNat (natToStr n) = n ∧ natToStr n ≠ [] ∧
      (natToStr n).all isDigitChar = true ∧ '.' ∉ natToStr n := by
  induction n using Nat.strong_induction_on with
  | _ n ih =>
    by_cases h10 : n < 10
    · rw [natToStr_eq_small h10]
      refine ⟨?_, by simp, ?_, ?_⟩
      · simp [digitsToNat, digitChar_toNat h10]
      · simp [digitChar_isDigit h10]
      · intro hmem
        exact digitChar_ne_dot h10 (List.mem_singleton.mp hmem).symm
    · have hd : n / 10 < n := Nat.div_lt_self (by omega) (by omega)
      obtain ⟨ihv, _, ihd, ihdot⟩ := ih (n / 10) hd
      rw [natToStr_eq_large h10]
      have hmod : n % 10 < 10 := Nat.mod_lt _ (by omega)
      refine ⟨?_, by simp, ?_, ?_⟩
      · rw [digitsToNat_append_digit, ihv, digitChar_toNat hmod]
        omega
      · simp [List.all_append, ihd, digitChar_isDigit hmod]
      · simp only [List.mem_append, List.mem_singleton]
        rintro (h | h)
        · exact ihdot h
        · exact (digitChar_ne_dot hmod) h.symm

theorem strToNat?_natToStr (n : Nat) : strToNat? (natToStr n) = some n := by
  obtain ⟨hv, hne, hdig, _⟩ := natToStr_spec n
  simp [strToNat?, List.isEmpty_iff, hne, hdig, hv]

-- ---------------------------------------------------------------------
-- splitOnDot lemmas
-- ---------------------------------------------------------------------

theorem splitOnDot_no_dot {a : List Char} (h : '.' ∉ a) : splitOnDot a = [a] := by
  induction a with
  | nil => rfl
  | cons c rest ih =>
    have hc : c ≠ '.' := fun hc => h (by simp [hc])
    have hr : '.' ∉ rest := fun hr => h (by simp [hr])
    simp [splitOnDot, hc, ih hr]

theorem splitOnDot_append {a : List Char} (b : List Char) (h : '.' ∉ a) :
    splitOnDot (a ++ '.' :: b) = a :: splitOnDot b := by
  induction a with
  | nil => simp [splitOnDot]
  | cons c rest ih =>
    have hc : c ≠ '.' := fun hc => h (by simp [hc])
    have hr : '.' ∉ rest := fun hr => h (by simp [hr])
    have hcons : splitOnDot (c :: (rest ++ '.' :: b)) =
        match splitOnDot (rest ++ '.' :: b) with
        | [] => [[c]]
        | g :: gs => (c :: g) :: gs := by
      simp [splitOnDot, hc]
    rw [List.cons_append, hcons, ih hr]

-- ---------------------------------------------------------------------
-- The program (src/semver.py), shallowly embedded
-- ---------------------------------------------------------------------

/-- `BASE_VERSION = "0.0.0"` (semver.py line 5). -/
def BASE_VERSION : List Char := "0.0.0".data

/-- `parse_version` (semver.py lines 7-9):
`major, minor, patch = map(int, v.split("."))` — succeeds exactly when the
split yields three components and each parses as an integer; any other
shape raises, modelled as `none`. -/
def parse_version (v : List Char) : Option (Nat × Nat × Nat) :=
  match (splitOnDot v).map strToNat? with
  | [some major, some minor, some patch] => some (major, minor, patch)
  | _ => none

/-- The f-string `f"{major}.{minor}.{patch}"` of semver.py line 22. -/
def formatVersion (major minor patch : Nat) : List Char :=
  natToStr major ++ '.' :: (natToStr minor ++ '.' :: natToStr patch)

/-- `formatVersion` on a triple. -/
def fmt3 (t : Nat × Nat × Nat) : List Char := formatVersion t.1 t.2.1 t.2.2

/-- `bump_version` (semver.py lines 11-22).  The level is the string
`"major"`, `"minor"` or anything else (the final `else` branch bumps the
patch digit); parsing the incoming version string can raise, hence
`Option`. -/
def bump_version (version : List Char) (level : List Char) : Option (List Char) :=
  (parse_version version).map fun t =>
    if level = "major".data then formatVersion (t.1 + 1) 0 0
    else if level = "minor".data then formatVersion t.1 (t.2.1 + 1) 0
    else formatVersion t.1 t.2.1 (t.2.2 + 1)

/-- ASCII lower-casing of one character, as Python's `str.lower()` acts on
the ASCII range (the only range the markers involve). -/
def lowerChar (c : Char) : Char :=
  if 'A' ≤ c ∧ c ≤ 'Z' then Char.ofNat (c.toNat + 32) else c

/-- `needle` occurs at the very start of `hay`. -/
def startsWith : List Char → List Char → Bool
  | [], _ => true
  | _ :: _, [] => false
  | p :: ps, c :: cs => p == c && startsWith ps cs

/-- Python's substring operator `needle in hay`. -/
def containsSub (needle : List Char) : List Char → Bool
  | [] => needle.isEmpty
  | c :: cs => startsWith needle (c :: cs) || containsSub needle cs

/-- The classification in `main` (semver.py lines 51-56):
`if "[major]" in msg.lower(): ... elif "[minor]" in msg.lower(): ...
else: "patch"`. -/
def classify (msg : List Char) : List Char :=
  if containsSub "[major]".data (msg.map lowerChar) then "major".data
  else if containsSub "[minor]".data (msg.map lowerChar) then "minor".data
  else "patch".data

/-- The outcome of one `git tag` invocation (semver.py line 66), as seen
by the engine.  The code ignores the result of `subprocess.run`, so the
outcome never influences control flow. -/
inductive TagOutcome
  | success
  | alreadyExists
  | writeFailed
deriving DecidableEq

/-- One loop iteration's externally visible output: the commit, the
derived version string, and the tag name `f"v{version}"` requested from
`git tag` for that commit. -/
structure StepOut where
  commit : List Char
  version : List Char
  tag : List Char
deriving DecidableEq

/-- The loop of `main` (semver.py lines 49-66).  Each commit comes paired
with `Option` of its message: `none` models `get_commit_message` raising
`CalledProcessError`, which propagates and aborts the run.  The returned
list holds the tag-write attempts actually performed, in order; the `Bool`
is `true` iff the loop ran to completion. -/
def main_loop : List Char → List (List Char × Option (List Char)) →
    (Nat → TagOutcome) → List StepOut × Bool
  | _, [], _ => ([], true)
  | _, (_, none) :: _, _ => ([], false)
  | version, (c, some msg) :: rest, tagResults =>
    match bump_version version (classify msg) with
    | none => ([], false)
    | some v' =>
      let (steps, ok) := main_loop v' rest (fun n => tagResults (n + 1))
      (⟨c, v', 'v' :: v'⟩ :: steps, ok)

/-- `main` (semver.py lines 45-67; Lean reserves the name `main`, hence
`main_run`).  The first argument models `get_commits()`: `none` when
`git rev-list` raises (HistoryUnavailable at enumeration time), otherwise
the ordered commit list with each commit's message-read result.  The run
starts from `BASE_VERSION`. -/
def main_run (commits : Option (List (List Char × Option (List Char))))
    (tagResults : Nat → TagOutcome) : List StepOut × Bool :=
  match commits with
  | none => ([], false)
  | some cs => main_loop BASE_VERSION cs tagResults

/-- Lift an all-readable history (every message read succeeds). -/
def okCommits (l : List (List Char × List Char)) :
    List (List Char × Option (List Char)) :=
  l.map (fun p => (p.1, some p.2))

-- ---------------------------------------------------------------------
-- Abstract (triple-level) mirror of the fold, used to state properties
-- ---------------------------------------------------------------------

/-- `bump_version` at the level of integer triples. -/
def bumpTriple (t : Nat × Nat × Nat) (level : List Char) : Nat × Nat × Nat :=
  if level = "major".data then (t.1 + 1, 0, 0)
  else if level = "minor".data then (t.1, t.2.1 + 1, 0)
  else (t.1, t.2.1, t.2.2 + 1)

/-- The sequence of version triples the fold derives from a message list,
starting from `t`. -/
def triplesFrom (t : Nat × Nat × Nat) : List (List Char) → List (Nat × Nat × Nat)
  | [] => []
  | m :: ms =>
    let t' := bumpTriple t (classify m)
    t' :: triplesFrom t' ms

/-- The expected per-commit output of `main_loop` on an all-readable
history starting from triple `t`. -/
def stepsFrom (t : Nat × Nat × Nat) : List (List Char × List Char) → List StepOut
  | [] => []
  | (c, m) :: rest =>
    let t' := bumpTriple t (classify m)
    ⟨c, fmt3 t', 'v' :: fmt3 t'⟩ :: stepsFrom t' rest

/-- Strict lexicographic order on (major, minor, patch). -/
def vLt (x y : Nat × Nat × Nat) : Prop :=
  x.1 < y.1 ∨ (x.1 = y.1 ∧ (x.2.1 < y.2.1 ∨ (x.2.1 = y.2.1 ∧ x.2.2 < y.2.2)))

/-- The longest prefix of the history whose message reads all succeed,
with the messages unwrapped. -/
def readOk : List (List Char × Option (List Char)) → List (List Char × List Char)
  | [] => []
  | (c, some m) :: rest => (c, m) :: readOk rest
  | (_, none) :: _ => []

/-- Whether every message read in the history succeeds. -/
def allReadable : List (List Char × Option (List Char)) → Bool
  | [] => true
  | (_, some _) :: rest => allReadable rest
  | (_, none) :: _ => false

-- ---------------------------------------------------------------------
-- Refinement lemmas
-- ---------------------------------------------------------------------

theorem splitOnDot_formatVersion (a b c : Nat) :
    splitOnDot (formatVersion a b c) = [natToStr a, natToStr b, natToStr c] := by
  rw [formatVersion, splitOnDot_append _ (natToStr_spec a).2.2.2,
    splitOnDot_append _ (natToStr_spec b).2.2.2,
    splitOnDot_no_dot (natToStr_spec c).2.2.2]

theorem parse_version_formatVersion (a b c : Nat) :
    parse_version (formatVersion a b c) = some (a, b, c) := by
  rw [parse_version, splitOnDot_formatVersion]
  simp [strToNat?_natToStr]

theorem BASE_VERSION_eq : BASE_VERSION = fmt3 (0, 0, 0) := by decide

theorem bump_version_fmt3 (t : Nat × Nat × Nat) (level : List Char) :
    bump_version (fmt3 t) level = some (fmt3 (bumpTriple t level)) := by
  obtain ⟨a, b, c⟩ := t
  rw [show fmt3 (a, b, c) = formatVersion a b c from rfl, bump_version,
    parse_version_formatVersion, bumpTriple]
  by_cases h1 : level = "major".data
  · simp [h1, fmt3]
  · by_cases h2 : level = "minor".data
    · simp [h1, h2, fmt3]
    · simp [h1, h2, fmt3]

theorem main_loop_spec (t : Nat × Nat × Nat)
    (cs : List (List Char × Option (List Char))) (o : Nat → TagOutcome) :
    main_loop (fmt3 t) cs o = (stepsFrom t (readOk cs), allReadable cs) := by
  induction cs generalizing t o with
  | nil => rfl
  | cons p rest ih =>
    obtain ⟨c, m⟩ := p
    cases m with
    | none => rfl
    | some msg =>
      simp only [main_loop, bump_version_fmt3, readOk, stepsFrom, allReadable]
      rw [ih]

theorem readOk_okCommits (l : List (List Char × List Char)) :
    readOk (okCommits l) = l := by
  induction l with
  | nil => rfl
  | cons p rest ih => simp [okCommits, readOk] at ih ⊢; exact ih

theorem allReadable_okCommits (l : List (List Char × List Char)) :
    allReadable (okCommits l) = true := by
  induction l with
  | nil => rfl
  | cons p rest ih => simpa [okCommits, allReadable] using ih

theorem main_loop_okCommits (t : Nat × Nat × Nat)
    (l : List (List Char × List Char)) (o : Nat → TagOutcome) :
    main_loop (fmt3 t) (okCommits l) o = (stepsFrom t l, true) := by
  rw [main_loop_spec, readOk_okCommits, allReadable_okCommits]

theorem stepsFrom_version (t : Nat × Nat × Nat) (l : List (List Char × List Char)) :
    (stepsFrom t l).map StepOut.version = (triplesFrom t (l.map Prod.snd)).map fmt3 := by
  induction l generalizing t with
  | nil => rfl
  | cons p rest ih =>
    obtain ⟨c, m⟩ := p
    simp only [stepsFrom, triplesFrom, List.map_cons]
    rw [ih]

theorem stepsFrom_commit (t : Nat × Nat × Nat) (l : List (List Char × List Char)) :
    (stepsFrom t l).map StepOut.commit = l.map Prod.fst := by
  induction l generalizing t with
  | nil => rfl
  | cons p rest ih =>
    obtain ⟨c, m⟩ := p
    simp only [stepsFrom, List.map_cons]
    rw [ih]

theorem stepsFrom_tag (t : Nat × Nat × Nat) (l : List (List Char × List Char)) :
    (stepsFrom t l).map StepOut.tag =
      ((stepsFrom t l).map StepOut.version).map (fun v => 'v' :: v) := by
  induction l generalizing t with
  | nil => rfl
  | cons p rest ih =>
    obtain ⟨c, m⟩ := p
    simp only [stepsFrom, List.map_cons]
    rw [ih]

theorem stepsFrom_length (t : Nat × Nat × Nat) (l : List (List Char × List Char)) :
    (stepsFrom t l).length = l.length := by
  induction l generalizing t with
  | nil => rfl
  | cons p rest ih =>
    obtain ⟨c, m⟩ := p
    simp only [stepsFrom, List.length_cons]
    rw [ih]

theorem main_loop_oracle_irrelevant (v : List Char)
    (cs : List (List Char × Option (List Char))) (o o' : Nat → TagOutcome) :
    main_loop v cs o = main_loop v cs o' := by
  induction cs generalizing v o o' with
  | nil => rfl
  | cons p rest ih =>
    obtain ⟨c, m⟩ := p
    cases m with
    | none => rfl
    | some msg =>
      simp only [main_loop]
      cases bump_version v (classify msg) with
      | none => rfl
      | some v' =>
        dsimp only
        rw [ih]

-- ---------------------------------------------------------------------
-- Order lemmas
-- ---------------------------------------------------------------------

theorem vLt_bumpTriple (t : Nat × Nat × Nat) (level : List Char) :
    vLt t (bumpTriple t level) := by
  obtain ⟨a, b, c⟩ := t
  rw [bumpTriple, vLt]
  by_cases h1 : level = "major".data
  · simp [h1]
  · by_cases h2 : level = "minor".data
    · simp [h1, h2]
    · simp [h1, h2]

theorem vLt_trans {x y z : Nat × Nat × Nat} (h1 : vLt x y) (h2 : vLt y z) :
    vLt x z := by
  obtain ⟨a, b, c⟩ := x
  obtain ⟨d, e, f⟩ := y
  obtain ⟨g, i, j⟩ := z
  rw [vLt] at h1 h2 ⊢
  simp only at h1 h2 ⊢
  omega

theorem triplesFrom_head_lt (t : Nat × Nat × Nat) (ms : List (List Char)) :
    ∀ u ∈ triplesFrom t ms, vLt t u := by
  induction ms generalizing t with
  | nil => intro u hu; simp [triplesFrom] at hu
  | cons m ms ih =>
    intro u hu
    simp only [triplesFrom, List.mem_cons] at hu
    rcases hu with rfl | hu
    · exact vLt_bumpTriple t (classify m)
    · exact vLt_trans (vLt_bumpTriple t (classify m)) (ih _ u hu)

theorem triplesFrom_pairwise (t : Nat × Nat × Nat) (ms : List (List Char)) :
    List.Pairwise vLt (t :: triplesFrom t ms) := by
  induction ms generalizing t with
  | nil => simp [triplesFrom]
  | cons m ms ih =>
    refine List.pairwise_cons.mpr ⟨triplesFrom_head_lt t (m :: ms), ?_⟩
    show List.Pairwise vLt
      (bumpTriple t (classify m) :: triplesFrom (bumpTriple t (classify m)) ms)
    exact ih _

theorem bumpTriple_major (t : Nat × Nat × Nat) :
    bumpTriple t "major".data = (t.1 + 1, 0, 0) := by
  rw [bumpTriple, if_pos rfl]

theorem bumpTriple_minor (t : Nat × Nat × Nat) :
    bumpTriple t "minor".data = (t.1, t.2.1 + 1, 0) := by
  rw [bumpTriple, if_neg (by decide), if_pos rfl]

theorem bumpTriple_patch (t : Nat × Nat × Nat) :
    bumpTriple t "patch".data = (t.1, t.2.1, t.2.2 + 1) := by
  rw [bumpTriple, if_neg (by decide), if_neg (by decide)]

theorem pairs_eq_of_proj_eq {α β : Type} : ∀ {l l' : List (α × β)},
    l.map Prod.fst = l'.map Prod.fst → l.map Prod.snd = l'.map Prod.snd → l = l' := by
  intro l
  induction l with
  | nil =>
    intro l' h1 _
    cases l' with
    | nil => rfl
    | cons q r => simp at h1
  | cons p rest ih =>
    intro l' h1 h2
    cases l' with
    | nil => simp at h1
    | cons q r =>
      obtain ⟨a, b⟩ := p
      obtain ⟨a', b'⟩ := q
      simp only [List.map_cons, List.cons.injEq] at h1 h2
      rw [h1.1, h2.1, ih h1.2 h2.2]

-- ---------------------------------------------------------------------
-- The claims
-- ---------------------------------------------------------------------

/-- Claim C1: for every version triple and every bump level, `bump_version`
returns a strictly greater version under lexicographic order on
(major, minor, patch); consequently, from any finite ordered commit list
the fold derives a strictly increasing sequence of versions, starting
above (0,0,0). -/
theorem bump_and_fold_strictly_increase :
    (∀ (t : Nat × Nat × Nat) (level : List Char),
      bump_version (fmt3 t) level = some (fmt3 (bumpTriple t level)) ∧
        vLt t (bumpTriple t level)) ∧
    (∀ msgs : List (List Char),
      List.Pairwise vLt ((0, 0, 0) :: triplesFrom (0, 0, 0) msgs)) ∧
    (∀ (l : List (List Char × List Char)) (o : Nat → TagOutcome),
      (main_run (some (okCommits l)) o).1.map StepOut.version =
        (triplesFrom (0, 0, 0) (l.map Prod.snd)).map fmt3) := by
  refine ⟨fun t level => ⟨bump_version_fmt3 t level, vLt_bumpTriple t level⟩,
    fun msgs => triplesFrom_pairwise (0, 0, 0) msgs, fun l o => ?_⟩
  show (main_loop BASE_VERSION (okCommits l) o).1.map StepOut.version = _
  rw [BASE_VERSION_eq, main_loop_okCommits]
  exact stepsFrom_version (0, 0, 0) l

/-- Claim C2: the bump rules unconditionally reset all lower-order digits:
`bump (a,b,c) Major = (a+1,0,0)`, `bump (a,b,c) Minor = (a,b+1,0)`,
`bump (a,b,c) Patch = (a,b,c+1)`, for every version, with no exceptions. -/
theorem bump_version_reset_rules : ∀ a b c : Nat,
    bump_version (formatVersion a b c) "major".data =
      some (formatVersion (a + 1) 0 0) ∧
    bump_version (formatVersion a b c) "minor".data =
      some (formatVersion a (b + 1) 0) ∧
    bump_version (formatVersion a b c) "patch".data =
      some (formatVersion a b (c + 1)) := by
  intro a b c
  have h1 := bump_version_fmt3 (a, b, c) "major".data
  have h2 := bump_version_fmt3 (a, b, c) "minor".data
  have h3 := bump_version_fmt3 (a, b, c) "patch".data
  rw [bumpTriple_major] at h1
  rw [bumpTriple_minor] at h2
  rw [bumpTriple_patch] at h3
  exact ⟨h1, h2, h3⟩

/-- Claim C3: classification is a case-insensitive substring search for the
literal markers `[major]` and `[minor]`: it depends only on the lowercased
message; a message containing `[major]` (in any case, hence also one
containing both markers) classifies as Major; a message containing only
`[minor]` classifies as Minor. -/
theorem classify_case_insensitive_precedence :
    (∀ msg msg' : List Char, msg.map lowerChar = msg'.map lowerChar →
      classify msg = classify msg') ∧
    (∀ msg : List Char, containsSub "[major]".data (msg.map lowerChar) = true →
      classify msg = "major".data) ∧
    (∀ msg : List Char, containsSub "[minor]".data (msg.map lowerChar) = true →
      containsSub "[major]".data (msg.map lowerChar) = false →
      classify msg = "minor".data) := by
  refine ⟨fun msg msg' h => ?_, fun msg h => ?_, fun msg h1 h2 => ?_⟩
  · rw [classify, classify, h]
  · rw [classify, if_pos h]
  · rw [classify, if_neg (by rw [h2]; exact Bool.false_ne_true), if_pos h1]

/-- Witness for C3 at concrete messages, including the spec's pathological
example `"[MAJOR] fix [minor] typo"`. -/
theorem classify_case_insensitive_precedence_witness :
    classify "[MAJOR] fix [minor] typo".data = "major".data ∧
    classify "fix [MINOR] bug".data = "minor".data ∧
    classify "Fix BUG".data = classify "fix bug".data :=
  ⟨classify_case_insensitive_precedence.2.1 _ (by decide),
   classify_case_insensitive_precedence.2.2 _ (by decide) (by decide),
   classify_case_insensitive_precedence.1 _ _ (by decide)⟩

/-- Claim C4: a message containing neither marker (in particular the empty
message) classifies as Patch; classification is total, version arithmetic
succeeds on every version the engine handles, and a run over any
all-readable history never aborts. -/
theorem classify_default_and_total :
    (∀ msg : List Char, containsSub "[major]".data (msg.map lowerChar) = false →
      containsSub "[minor]".data (msg.map lowerChar) = false →
      classify msg = "patch".data) ∧
    classify [] = "patch".data ∧
    (∀ (t : Nat × Nat × Nat) (level : List Char),
      (bump_version (fmt3 t) level).isSome = true) ∧
    (∀ (l : List (List Char × List Char)) (o : Nat → TagOutcome),
      (main_run (some (okCommits l)) o).2 = true) := by
  refine ⟨fun msg h1 h2 => ?_, by decide, fun t level => ?_, fun l o => ?_⟩
  · rw [classify, if_neg (by rw [h1]; exact Bool.false_ne_true),
      if_neg (by rw [h2]; exact Bool.false_ne_true)]
  · rw [bump_version_fmt3]; rfl
  · show (main_loop BASE_VERSION (okCommits l) o).2 = true
    rw [BASE_VERSION_eq, main_loop_okCommits]

/-- Witness for C4: empty and marker-free messages classify as Patch, and a
concrete bump succeeds. -/
theorem classify_default_and_total_witness :
    classify "just a fix   ".data = "patch".data ∧
    (bump_version (fmt3 (1, 2, 3)) "patch".data).isSome = true :=
  ⟨classify_default_and_total.1 _ (by decide) (by decide),
   classify_default_and_total.2.2.1 (1, 2, 3) "patch".data⟩

/-- Claim C5: starting from `0.0.0`, the three-commit history with messages
`"init"`, `"[minor] add feature"`, `"[major] breaking change"` yields the
versions 0.0.1, 0.1.0, 1.0.0 and the tag requests v0.0.1, v0.1.0, v1.0.0,
in that order, for any commit identifiers and any tag-writer outcomes. -/
theorem end_to_end_example (c1 c2 c3 : List Char) (o : Nat → TagOutcome) :
    main_run (some (okCommits [(c1, "init".data), (c2, "[minor] add feature".data),
      (c3, "[major] breaking change".data)])) o =
    ([⟨c1, "0.0.1".data, "v0.0.1".data⟩, ⟨c2, "0.1.0".data, "v0.1.0".data⟩,
      ⟨c3, "1.0.0".data, "v1.0.0".data⟩], true) := by
  show main_loop BASE_VERSION _ o = _
  rw [BASE_VERSION_eq, main_loop_okCommits]
  rfl

/-- Claim C6: the run is deterministic — for a fixed commit sequence the
produced sequence of tag assignments does not depend on the tag-writer
outcomes, and it is a function only of the commit identifiers and message
texts (the fold starts from the fixed `BASE_VERSION`). -/
theorem deterministic_runs :
    (∀ (cs : List (List Char × Option (List Char))) (o o' : Nat → TagOutcome),
      main_run (some cs) o = main_run (some cs) o') ∧
    (∀ (l l' : List (List Char × List Char)) (o o' : Nat → TagOutcome),
      l.map Prod.fst = l'.map Prod.fst → l.map Prod.snd = l'.map Prod.snd →
      main_run (some (okCommits l)) o = main_run (some (okCommits l')) o') := by
  constructor
  · intro cs o o'
    exact main_loop_oracle_irrelevant BASE_VERSION cs o o'
  · intro l l' o o' h1 h2
    rw [pairs_eq_of_proj_eq h1 h2]
    exact main_loop_oracle_irrelevant BASE_VERSION (okCommits l') o o'

/-- Witness for C6: a concrete run is unchanged when every tag write
succeeds versus when every tag write fails. -/
theorem deterministic_runs_witness :
    main_run (some (okCommits [("abc1234".data, "[minor] x".data)]))
      (fun _ => TagOutcome.success) =
    main_run (some (okCommits [("abc1234".data, "[minor] x".data)]))
      (fun _ => TagOutcome.writeFailed) :=
  deterministic_runs.2 _ _ _ _ (by decide) (by decide)

/-- Counterexample to Claim C7 as stated: in the run over commits
`aaaaaaa` (message reads fine) and `bbbbbbb` (message read fails), the run
aborts — yet the tag write `v0.0.1` for `aaaaaaa` was already performed in
this very run, so "no tag write of the current run is performed" is false. -/
theorem history_failure_midrun_counterexample :
    (main_run (some [("aaaaaaa".data, some "init".data), ("bbbbbbb".data, none)])
      (fun _ => TagOutcome.success)).2 = false ∧
    (main_run (some [("aaaaaaa".data, some "init".data), ("bbbbbbb".data, none)])
      (fun _ => TagOutcome.success)).1 =
      [⟨"aaaaaaa".data, "0.0.1".data, "v0.0.1".data⟩] := by
  decide

/-- Claim C7 (amended): when commit enumeration fails, the run writes no
tag at all; when a message read fails mid-run, the run aborts with no
further tag writes, but the tags already written for the longest readable
prefix of the history remain — exactly one tag per commit of that prefix. -/
theorem history_failure_amended :
    (∀ o : Nat → TagOutcome, main_run none o = ([], false)) ∧
    (∀ (cs : List (List Char × Option (List Char))) (o : Nat → TagOutcome),
      main_run (some cs) o = (stepsFrom (0, 0, 0) (readOk cs), allReadable cs)) := by
  refine ⟨fun o => rfl, fun cs o => ?_⟩
  show main_loop BASE_VERSION cs o = _
  rw [BASE_VERSION_eq, main_loop_spec]

/-- Claim C8: the sequence of derived versions is a function of the message
texts alone and is unchanged across runs that differ only in tag-writer
outcomes — tag-write failures never corrupt the in-memory running version. -/
theorem version_sequence_ignores_tag_outcomes
    (l : List (List Char × List Char)) (o o' : Nat → TagOutcome) :
    (main_run (some (okCommits l)) o).1.map StepOut.version =
      (triplesFrom (0, 0, 0) (l.map Prod.snd)).map fmt3 ∧
    (main_run (some (okCommits l)) o).1.map StepOut.version =
      (main_run (some (okCommits l)) o').1.map StepOut.version := by
  have key : ∀ oo : Nat → TagOutcome,
      (main_run (some (okCommits l)) oo).1.map StepOut.version =
        (triplesFrom (0, 0, 0) (l.map Prod.snd)).map fmt3 := by
    intro oo
    show (main_loop BASE_VERSION (okCommits l) oo).1.map StepOut.version = _
    rw [BASE_VERSION_eq, main_loop_okCommits]
    exact stepsFrom_version (0, 0, 0) l
  exact ⟨key o, (key o).trans (key o').symm⟩

/-- Claim C9: the engine issues exactly one tag assignment per input
commit, in order, and each requested tag name is exactly `'v'` followed by
the derived version rendered as `<major>.<minor>.<patch>` in decimal. -/
theorem tag_output_shape (l : List (List Char × List Char)) (o : Nat → TagOutcome) :
    (main_run (some (okCommits l)) o).1.length = l.length ∧
    (main_run (some (okCommits l)) o).1.map StepOut.commit = l.map Prod.fst ∧
    (main_run (some (okCommits l)) o).1.map StepOut.tag =
      ((main_run (some (okCommits l)) o).1.map StepOut.version).map
        (fun v => 'v' :: v) ∧
    (main_run (some (okCommits l)) o).1.map StepOut.version =
      (triplesFrom (0, 0, 0) (l.map Prod.snd)).map fmt3 := by
  have hrw : (main_run (some (okCommits l)) o).1 = stepsFrom (0, 0, 0) l := by
    show (main_loop BASE_VERSION (okCommits l) o).1 = _
    rw [BASE_VERSION_eq, main_loop_okCommits]
  rw [hrw]
  exact ⟨stepsFrom_length (0, 0, 0) l, stepsFrom_commit (0, 0, 0) l,
    stepsFrom_tag (0, 0, 0) l, stepsFrom_version (0, 0, 0) l⟩

/-- Claim C10: version formatting and parsing round-trip on every
non-negative triple, the initial `"0.0.0"` parses, and `parse_version`
succeeds on every version string a run actually produces. -/
theorem parse_version_safety :
    (∀ a b c : Nat, parse_version (formatVersion a b c) = some (a, b, c)) ∧
    parse_version BASE_VERSION = some (0, 0, 0) ∧
    (∀ (l : List (List Char × List Char)) (o : Nat → TagOutcome),
      ((main_run (some (okCommits l)) o).1.map StepOut.version).all
        (fun v => (parse_version v).isSome) = true) := by
  refine ⟨parse_version_formatVersion, by decide, fun l o => ?_⟩
  have hv : (main_run (some (okCommits l)) o).1.map StepOut.version =
      (triplesFrom (0, 0, 0) (l.map Prod.snd)).map fmt3 := by
    show (main_loop BASE_VERSION (okCommits l) o).1.map StepOut.version = _
    rw [BASE_VERSION_eq, main_loop_okCommits]
    exact stepsFrom_version (0, 0, 0) l
  rw [hv, List.all_eq_true]
  intro v hvmem
  obtain ⟨t, -, rfl⟩ := List.mem_map.mp hvmem
  obtain ⟨a, b, c⟩ := t
  rw [show fmt3 (a, b, c) = formatVersion a b c from rfl,
    parse_version_formatVersion]
  rfl
